import Mathlib

/-!
Shallow embedding of the aspect-ratio-preserving layout engine of the
wallpaper-creator application (src/app.js, class WallpaperCreator).

Numbers are modelled by the rationals.  Every definition mirrors the
corresponding method of the source; state that the source reads from
`this` (auto-fit settings, canvas size) is passed explicitly in a
`Config` record, and the `Math.random()` calls of the organic strategy
are modelled by an injected stream of sample pairs.
-/

/-- Models an image descriptor: `{id, originalWidth, originalHeight}`.
Only the fields read by the layout algorithms are kept. -/
structure Image where
  id : ℕ
  originalWidth : ℚ
  originalHeight : ℚ
deriving DecidableEq, Repr

/-- Models `this.autoFitSettings` together with `this.canvasWidth` and
`this.canvasHeight` (the fields of the source object that the layout
algorithms never read — maintainRatio, fillCanvas, stackDirection,
balanceComposition — are omitted). -/
structure Config where
  spacing : ℚ
  margin : ℚ
  minImageSize : ℚ
  maxScaleDown : ℚ
  allowStacking : Bool
  prioritizeLargeImages : Bool
  canvasWidth : ℚ
  canvasHeight : ℚ
deriving DecidableEq, Repr

/-- The constructor defaults: spacing 10, margin 20, minImageSize 100,
maxScaleDown 0.3, allowStacking true, prioritizeLargeImages false,
canvas 1920 by 1080. -/
def defaultConfig : Config :=
  { spacing := 10, margin := 20, minImageSize := 100, maxScaleDown := 3/10,
    allowStacking := true, prioritizeLargeImages := false,
    canvasWidth := 1920, canvasHeight := 1080 }

/-- Models a `{width, height}` dimension pair as returned by
`scaleImagePreservingRatio`. -/
structure Dims where
  width : ℚ
  height : ℚ
deriving DecidableEq, Repr

/-- Models the position objects the strategies push:
`{imageData, x, y, width, height}`. -/
structure Placement where
  imageData : Image
  x : ℚ
  y : ℚ
  width : ℚ
  height : ℚ
deriving DecidableEq, Repr

/-- Source `calculateAspectRatio(image)`:
`image.originalWidth / image.originalHeight` (no validity check of any
kind is performed on the dimensions). -/
def calculateAspectRatio (image : Image) : ℚ :=
  image.originalWidth / image.originalHeight

/-- Source `validateAspectRatioPreservation(originalImage, proposedDimensions)`:
`|originalRatio - proposedRatio| <= 0.01`. -/
def validateAspectRatioPreservation (originalImage : Image) (width height : ℚ) : Bool :=
  let originalRatio := calculateAspectRatio originalImage
  let proposedRatio := width / height
  decide (|originalRatio - proposedRatio| ≤ (1/100 : ℚ))

/-- Source `scaleImagePreservingRatio(originalImage, maxWidth, maxHeight)`.
Step 1 fits the bounding box (constraining by height when
`maxWidth / maxHeight > aspectRatio`, otherwise by width); step 2
re-derives both dimensions from `minImageSize` when either is below it,
keyed on whichever of width/height is currently smaller. -/
def scaleImagePreservingRatio (cfg : Config) (originalImage : Image)
    (maxWidth maxHeight : ℚ) : Dims :=
  let aspectRatio := calculateAspectRatio originalImage
  let step1 : Dims :=
    if aspectRatio < maxWidth / maxHeight then
      { width := maxHeight * aspectRatio, height := maxHeight }
    else
      { width := maxWidth, height := maxWidth / aspectRatio }
  let minSize := cfg.minImageSize
  if step1.width < minSize ∨ step1.height < minSize then
    if step1.width < step1.height then
      { width := minSize, height := minSize / aspectRatio }
    else
      { width := minSize * aspectRatio, height := minSize }
  else
    step1

/-- Fuel-counting search for the least `c` at or above the accumulator
with `n ≤ c * c` (executable model of `Math.ceil(Math.sqrt n)`). -/
def ceilSqrtGo (n : ℕ) : ℕ → ℕ → ℕ
  | 0, c => c
  | fuel + 1, c => if n ≤ c * c then c else ceilSqrtGo n fuel (c + 1)

/-- `Math.ceil(Math.sqrt n)` for a natural number `n`: the least `c`
with `n ≤ c * c` (see `ceilSqrt_spec`). -/
def ceilSqrt (n : ℕ) : ℕ :=
  ceilSqrtGo n n 0

/-- `Math.ceil(n / c)` for natural numbers (the grid row count). -/
def ceilDivNat (n c : ℕ) : ℕ :=
  (n + c - 1) / c

theorem ceilSqrtGo_spec (n : ℕ) :
    ∀ fuel c, (∃ m, c ≤ m ∧ m ≤ c + fuel ∧ n ≤ m * m) →
      n ≤ ceilSqrtGo n fuel c * ceilSqrtGo n fuel c ∧
      ∀ m, c ≤ m → n ≤ m * m → ceilSqrtGo n fuel c ≤ m := by
  intro fuel
  induction fuel with
  | zero =>
      intro c ⟨m, h1, h2, h3⟩
      have hmc : m = c := by omega
      subst hmc
      exact ⟨h3, fun m hm _ => hm⟩
  | succ fuel ih =>
      intro c ⟨m, h1, h2, h3⟩
      by_cases hc : n ≤ c * c
      · exact ⟨by simp [ceilSqrtGo, hc], fun m hm _ => by simpa [ceilSqrtGo, hc] using hm⟩
      · have hmc : m ≠ c := by
          intro h
          rw [h] at h3
          exact hc h3
        have hrec := ih (c + 1) ⟨m, by omega, by omega, h3⟩
        have hstep : ceilSqrtGo n (fuel + 1) c = ceilSqrtGo n fuel (c + 1) := by
          simp [ceilSqrtGo, hc]
        rw [hstep]
        refine ⟨hrec.1, fun m' hm' hn' => ?_⟩
        rcases Nat.eq_or_lt_of_le hm' with he | hl
        · exact absurd (he ▸ hn') hc
        · exact hrec.2 m' (by omega) hn'

theorem ceilSqrt_spec (n : ℕ) :
    n ≤ ceilSqrt n * ceilSqrt n ∧ ∀ m : ℕ, n ≤ m * m → ceilSqrt n ≤ m := by
  have hself : n ≤ n * n := by
    rcases Nat.eq_zero_or_pos n with h | h
    · simp [h]
    · exact Nat.le_mul_of_pos_left n h
  have h := ceilSqrtGo_spec n n 0 ⟨n, Nat.zero_le n, by omega, hself⟩
  exact ⟨h.1, fun m hm => h.2 m (Nat.zero_le m) hm⟩

theorem ceilDivNat_spec (n c : ℕ) (hc : 0 < c) (hn : 0 < n) :
    n ≤ c * ceilDivNat n c ∧ ∀ r : ℕ, n ≤ c * r → ceilDivNat n c ≤ r := by
  unfold ceilDivNat
  have hrw : n + c - 1 = (n - 1) + c := by omega
  rw [hrw, Nat.add_div_right _ hc]
  constructor
  · have hmod := Nat.mod_lt (n - 1) hc
    have hdm := Nat.div_add_mod (n - 1) c
    have h1 : n - 1 < c * ((n - 1) / c) + c := by omega
    have h2 : c * ((n - 1) / c + 1) = c * ((n - 1) / c) + c := by ring
    omega
  · intro r hr
    have h2 : n - 1 < c * r := by omega
    have : (n - 1) / c < r := Nat.div_lt_of_lt_mul (by omega)
    omega

theorem ceilDivNat_div_lt (n c i : ℕ) (hc : 0 < c) (hn : 0 < n) (hi : i < n) :
    i / c < ceilDivNat n c := by
  unfold ceilDivNat
  have hrw : n + c - 1 = (n - 1) + c := by omega
  rw [hrw, Nat.add_div_right _ hc]
  have : i / c ≤ (n - 1) / c := Nat.div_le_div_right (by omega)
  omega

/-- The minimum-size step and both bounding-box branches all re-derive one
dimension from the other through the aspect ratio, so the result of
`scaleImagePreservingRatio` has positive height and exactly the intrinsic
ratio whenever the image's dimensions and `minImageSize` are positive. -/
theorem scaleImagePreservingRatio_exact (cfg : Config) (img : Image)
    (maxWidth maxHeight : ℚ)
    (hw : 0 < img.originalWidth) (hh : 0 < img.originalHeight)
    (hm : 0 < cfg.minImageSize) :
    0 < (scaleImagePreservingRatio cfg img maxWidth maxHeight).height ∧
    (scaleImagePreservingRatio cfg img maxWidth maxHeight).width /
      (scaleImagePreservingRatio cfg img maxWidth maxHeight).height =
      calculateAspectRatio img := by
  have hr : 0 < calculateAspectRatio img := div_pos hw hh
  have hrne : calculateAspectRatio img ≠ 0 := ne_of_gt hr
  have hmne : cfg.minImageSize ≠ 0 := ne_of_gt hm
  unfold scaleImagePreservingRatio
  set ratio := calculateAspectRatio img with hratio
  by_cases hb : ratio < maxWidth / maxHeight
  · simp only [hb, if_true]
    by_cases hmin : maxHeight * ratio < cfg.minImageSize ∨ maxHeight < cfg.minImageSize
    · simp only [hmin, if_true]
      by_cases hc : maxHeight * ratio < maxHeight
      · simp only [hc, if_true]
        refine ⟨div_pos hm hr, ?_⟩
        field_simp
      · simp only [hc, if_false]
        refine ⟨hm, ?_⟩
        field_simp
    · simp only [hmin, if_false]
      push_neg at hmin
      have hH : 0 < maxHeight := lt_of_lt_of_le hm hmin.2
      refine ⟨hH, ?_⟩
      field_simp
  · simp only [hb, if_false]
    by_cases hmin : maxWidth < cfg.minImageSize ∨ maxWidth / ratio < cfg.minImageSize
    · simp only [hmin, if_true]
      by_cases hc : maxWidth < maxWidth / ratio
      · simp only [hc, if_true]
        refine ⟨div_pos hm hr, ?_⟩
        field_simp
      · simp only [hc, if_false]
        refine ⟨hm, ?_⟩
        field_simp
    · simp only [hmin, if_false]
      push_neg at hmin
      have hH : 0 < maxWidth / ratio := lt_of_lt_of_le hm hmin.2
      have hWne : maxWidth ≠ 0 := by
        intro h0
        rw [h0, zero_div] at hH
        exact lt_irrefl 0 hH
      have hdne : maxWidth / ratio ≠ 0 := ne_of_gt hH
      refine ⟨hH, ?_⟩
      field_simp

/-- A placement whose dimensions come from `scaleImagePreservingRatio`
passes the 0.01-tolerance validator. -/
theorem validate_of_scale (cfg : Config) (img : Image) (maxW maxH : ℚ)
    (hw : 0 < img.originalWidth) (hh : 0 < img.originalHeight)
    (hm : 0 < cfg.minImageSize) :
    validateAspectRatioPreservation img
      (scaleImagePreservingRatio cfg img maxW maxH).width
      (scaleImagePreservingRatio cfg img maxW maxH).height = true := by
  have h := scaleImagePreservingRatio_exact cfg img maxW maxH hw hh hm
  unfold validateAspectRatioPreservation
  rw [h.2]
  simp

/-- C2: for positive intrinsic dimensions and positive bounds,
`scaleImagePreservingRatio` computes exactly the two-step procedure of
the spec (bounding-box fit keyed on `maxWidth/maxHeight > ratio`, then
the minimum-size re-derivation keyed on whichever dimension is smaller),
and the returned width/height ratio equals the intrinsic ratio exactly. -/
theorem claim2_scale_two_step (cfg : Config) (img : Image) (maxWidth maxHeight : ℚ)
    (hw : 0 < img.originalWidth) (hh : 0 < img.originalHeight)
    (_hmW : 0 < maxWidth) (_hmH : 0 < maxHeight) (hm : 0 < cfg.minImageSize) :
    (scaleImagePreservingRatio cfg img maxWidth maxHeight =
      (let ratio := img.originalWidth / img.originalHeight
       let step1 : Dims :=
         if maxWidth / maxHeight > ratio then
           { width := maxHeight * ratio, height := maxHeight }
         else
           { width := maxWidth, height := maxWidth / ratio }
       if step1.width < cfg.minImageSize ∨ step1.height < cfg.minImageSize then
         if step1.width < step1.height then
           { width := cfg.minImageSize, height := cfg.minImageSize / ratio }
         else
           { width := cfg.minImageSize * ratio, height := cfg.minImageSize }
       else step1)) ∧
    (scaleImagePreservingRatio cfg img maxWidth maxHeight).width /
      (scaleImagePreservingRatio cfg img maxWidth maxHeight).height =
      img.originalWidth / img.originalHeight :=
  ⟨rfl, (scaleImagePreservingRatio_exact cfg img maxWidth maxHeight hw hh hm).2⟩

theorem claim2_scale_two_step_witness :
    (scaleImagePreservingRatio defaultConfig ⟨1, 16, 9⟩ 935 1040).width /
      (scaleImagePreservingRatio defaultConfig ⟨1, 16, 9⟩ 935 1040).height =
      (16 : ℚ) / 9 :=
  (claim2_scale_two_step defaultConfig ⟨1, 16, 9⟩ 935 1040
    (by decide) (by decide) (by decide) (by decide) (by decide)).2

/-- Row bookkeeping record of `applyNaturalFlowLayout`: the source pushes
`{image, aspectRatio, naturalWidth, naturalHeight, x, y}` onto
`rowImages`; the `x`/`y` fields are never read afterwards and are
omitted. -/
structure RowItem where
  image : Image
  aspectRatio : ℚ
  naturalWidth : ℚ
  naturalHeight : ℚ
deriving DecidableEq, Repr

/-- The `rowImages.forEach` loop of `finalizeNaturalRow`: emits one
placement per row entry, advancing `currentX` by the pre-floor scaled
width plus spacing while flooring each stored dimension at
`minImageSize` independently. -/
def finalizeRowGo (cfg : Config) (rowY finalScaleFactor : ℚ) :
    List RowItem → ℚ → List Placement
  | [], _ => []
  | item :: rest, currentX =>
      let finalWidth := item.naturalWidth * finalScaleFactor
      let finalHeight := item.naturalHeight * finalScaleFactor
      { imageData := item.image, x := currentX, y := rowY,
        width := max cfg.minImageSize finalWidth,
        height := max cfg.minImageSize finalHeight } ::
      finalizeRowGo cfg rowY finalScaleFactor rest (currentX + finalWidth + cfg.spacing)

/-- Source `finalizeNaturalRow(rowImages, rowY, availableWidth, positions)`
(returning the emitted placements instead of mutating an array). -/
def finalizeNaturalRow (cfg : Config) (rowImages : List RowItem)
    (rowY availableWidth : ℚ) : List Placement :=
  match rowImages with
  | [] => []
  | _ :: _ =>
    let totalNaturalWidth := (rowImages.map (fun item => item.naturalWidth)).sum
    let totalSpacing := ((rowImages.length : ℚ) - 1) * cfg.spacing
    let availableImageWidth := availableWidth - totalSpacing
    let scaleFactor := min 1 (availableImageWidth / totalNaturalWidth)
    let finalScaleFactor := max cfg.maxScaleDown scaleFactor
    finalizeRowGo cfg rowY finalScaleFactor rowImages cfg.margin

/-- Stable insertion of an image into a list sorted descending by
`originalWidth * originalHeight` (models the comparator
`(a, b) => b.area - a.area` of the source's stable `Array.sort`). -/
def insertByAreaDesc (img : Image) : List Image → List Image
  | [] => [img]
  | b :: rest =>
      if b.originalWidth * b.originalHeight < img.originalWidth * img.originalHeight then
        img :: b :: rest
      else
        b :: insertByAreaDesc img rest

/-- Stable descending-by-area sort (the unique stable order produced by
the source's `[...images].sort((a, b) => b.area - a.area)`). -/
def sortByAreaDesc : List Image → List Image
  | [] => []
  | a :: rest => insertByAreaDesc a (sortByAreaDesc rest)

/-- The main loop of `applyNaturalFlowLayout`: walks the images keeping
the cursor `(currentRowX, currentRowY)`, the running row height and the
current row's entries, breaking the row when the cursor would pass
`availableWidth + margin`. -/
def flowGo (cfg : Config) (availableWidth : ℚ) :
    List Image → ℚ → ℚ → ℚ → List RowItem → List Placement
  | [], currentRowY, _, _, rowImages =>
      finalizeNaturalRow cfg rowImages currentRowY availableWidth
  | image :: rest, currentRowY, currentRowX, currentRowHeight, rowImages =>
      let aspectRatio := calculateAspectRatio image
      let imageWidth := min image.originalWidth (availableWidth * (3/10))
      let imageHeight := imageWidth / aspectRatio
      if availableWidth + cfg.margin < currentRowX + imageWidth ∧ rowImages ≠ [] then
        finalizeNaturalRow cfg rowImages currentRowY availableWidth ++
        flowGo cfg availableWidth rest (currentRowY + currentRowHeight + cfg.spacing)
          (cfg.margin + imageWidth + cfg.spacing) (max 0 imageHeight)
          [⟨image, aspectRatio, imageWidth, imageHeight⟩]
      else
        flowGo cfg availableWidth rest currentRowY
          (currentRowX + imageWidth + cfg.spacing)
          (max currentRowHeight imageHeight)
          (rowImages ++ [⟨image, aspectRatio, imageWidth, imageHeight⟩])

/-- Source `applyNaturalFlowLayout(images)`. -/
def applyNaturalFlowLayout (cfg : Config) (images : List Image) : List Placement :=
  let availableWidth := cfg.canvasWidth - 2 * cfg.margin
  let sortedImages := if cfg.prioritizeLargeImages then sortByAreaDesc images else images
  flowGo cfg availableWidth sortedImages cfg.margin cfg.margin 0 []

/-- The scan of the source's shortest-column loop: starting from the
current best `(index, height)` pair and the position `i` of the list
head, returns the final best pair (strict `<`, so the first minimum
wins). -/
def findShortestAux : List ℚ → ℕ × ℚ → ℕ → ℕ × ℚ
  | [], best, _ => best
  | h :: t, best, i =>
      if h < best.2 then findShortestAux t (i, h) (i + 1)
      else findShortestAux t best (i + 1)

/-- Index of the shortest column (ties broken by the lowest index),
mirroring the `for (let i = 1; ...)` scan of `applyMasonryLayout`. -/
def findShortestColumn (hs : List ℚ) : ℕ :=
  match hs with
  | [] => 0
  | h :: t => (findShortestAux t (0, h) 1).1

/-- The `sortedImages.forEach` loop of `applyMasonryLayout`: places each
image into the currently shortest column and accumulates
`height + spacing` onto that column; returns the placements together
with the final column heights. -/
def masonryGo (cfg : Config) (columnWidth : ℚ) :
    List Image → List ℚ → List Placement × List ℚ
  | [], columnHeights => ([], columnHeights)
  | image :: rest, columnHeights =>
      let shortestColumn := findShortestColumn columnHeights
      let scaledDimensions := scaleImagePreservingRatio cfg image columnWidth (columnWidth * 2)
      let x := cfg.margin + (shortestColumn : ℚ) * (columnWidth + cfg.spacing)
      let y := columnHeights.getD shortestColumn 0
      let newHeights := columnHeights.set shortestColumn
        (columnHeights.getD shortestColumn 0 + scaledDimensions.height + cfg.spacing)
      let r := masonryGo cfg columnWidth rest newHeights
      ({ imageData := image, x := x, y := y,
         width := scaledDimensions.width, height := scaledDimensions.height } :: r.1,
       r.2)

/-- Source `applyMasonryLayout(images)`. -/
def applyMasonryLayout (cfg : Config) (images : List Image) : List Placement :=
  let availableWidth := cfg.canvasWidth - 2 * cfg.margin
  let columnCount := max 2 (min 5 (ceilSqrt images.length))
  let columnWidth := (availableWidth - ((columnCount : ℚ) - 1) * cfg.spacing) / (columnCount : ℚ)
  let sortedImages := if cfg.prioritizeLargeImages then sortByAreaDesc images else images
  (masonryGo cfg columnWidth sortedImages (List.replicate columnCount cfg.margin)).1

/-- Placement of the image at loop index `i` of
`applyProportionalGridLayout`: row-major cell `(i / cols, i % cols)`,
scaled into the cell and centered. -/
def gridPlace (cfg : Config) (cols : ℕ) (baseGridWidth baseGridHeight : ℚ)
    (image : Image) (i : ℕ) : Placement :=
  let row := i / cols
  let col := i % cols
  let gridX := cfg.margin + (col : ℚ) * (baseGridWidth + cfg.spacing)
  let gridY := cfg.margin + (row : ℚ) * (baseGridHeight + cfg.spacing)
  let scaledDimensions := scaleImagePreservingRatio cfg image baseGridWidth baseGridHeight
  { imageData := image,
    x := gridX + (baseGridWidth - scaledDimensions.width) / 2,
    y := gridY + (baseGridHeight - scaledDimensions.height) / 2,
    width := scaledDimensions.width, height := scaledDimensions.height }

/-- The indexed `for` loop of `applyProportionalGridLayout`. -/
def gridGo (cfg : Config) (cols : ℕ) (baseGridWidth baseGridHeight : ℚ) :
    List Image → ℕ → List Placement
  | [], _ => []
  | image :: rest, i =>
      gridPlace cfg cols baseGridWidth baseGridHeight image i ::
      gridGo cfg cols baseGridWidth baseGridHeight rest (i + 1)

/-- Source `applyProportionalGridLayout(images)`. -/
def applyProportionalGridLayout (cfg : Config) (images : List Image) : List Placement :=
  let availableWidth := cfg.canvasWidth - 2 * cfg.margin
  let availableHeight := cfg.canvasHeight - 2 * cfg.margin
  let cols := ceilSqrt images.length
  let rows := ceilDivNat images.length cols
  let baseGridWidth := (availableWidth - ((cols : ℚ) - 1) * cfg.spacing) / (cols : ℚ)
  let baseGridHeight := (availableHeight - ((rows : ℚ) - 1) * cfg.spacing) / (rows : ℚ)
  gridGo cfg cols baseGridWidth baseGridHeight images 0

/-- Models an entry of `this.aspectRatioCategories` (plus the two
fallback objects of `categorizeByAspectRatio`, which in the source carry
only `name` and `group`; their unread `ratio`/`tolerance` fields are 0
here). -/
structure AspectRatioCategory where
  name : String
  ratio : ℚ
  tolerance : ℚ
  group : String
deriving DecidableEq, Repr

/-- The fixed catalog from the constructor, in order. -/
def aspectRatioCategories : List AspectRatioCategory :=
  [⟨"Square", 1, 5/100, "square"⟩,
   ⟨"Portrait", 3/4, 15/100, "portrait"⟩,
   ⟨"Landscape", 133/100, 15/100, "landscape"⟩,
   ⟨"Wide", 178/100, 2/10, "wide"⟩,
   ⟨"Panoramic", 5/2, 1/2, "panoramic"⟩,
   ⟨"Ultra-wide", 7/2, 1, "ultrawide"⟩]

/-- Source `categorizeByAspectRatio(image)`: first catalog match wins,
with the landscape/portrait fallback. -/
def categorizeByAspectRatio (image : Image) : AspectRatioCategory :=
  let ratio := calculateAspectRatio image
  match aspectRatioCategories.find? (fun c => decide (|ratio - c.ratio| ≤ c.tolerance)) with
  | some c => c
  | none =>
      if 1 < ratio then ⟨"Landscape", 0, 0, "landscape"⟩
      else ⟨"Portrait", 0, 0, "portrait"⟩

/-- Appends `img` to the bucket keyed `g`, creating the bucket at the end
on first sight (JS objects preserve string-key insertion order, so the
source's `groups` dictionary is modelled by an association list). -/
def addToGroups : List (String × List Image) → String → Image → List (String × List Image)
  | [], g, img => [(g, [img])]
  | (k, xs) :: rest, g, img =>
      if k = g then (k, xs ++ [img]) :: rest
      else (k, xs) :: addToGroups rest g img

/-- Source `groupImagesByAspectRatio(images)`. -/
def groupImagesByAspectRatio (images : List Image) : List (String × List Image) :=
  images.foldl (fun acc img => addToGroups acc (categorizeByAspectRatio img).group img) []

/-- `Math.min(...values)` over a list (0 on the empty list, which the
source never reaches because every bucket is non-empty). -/
def qMinList : List ℚ → ℚ
  | [] => 0
  | x :: xs => xs.foldl min x

/-- `Math.max(...values)` over a list (0 on the empty list). -/
def qMaxList : List ℚ → ℚ
  | [] => 0
  | x :: xs => xs.foldl max x

/-- The `Object.keys(groups).forEach` loop of `applyAspectGroupedLayout`:
flow-lays each bucket, translates the block so its top sits at
`currentY`, and advances `currentY` by the block height plus twice the
spacing. -/
def groupedGo (cfg : Config) : List (String × List Image) → ℚ → List Placement
  | [], _ => []
  | (_, groupImages) :: rest, currentY =>
      let groupPositions := applyNaturalFlowLayout cfg groupImages
      let minY := qMinList (groupPositions.map (fun p => p.y))
      let maxY := qMaxList (groupPositions.map (fun p => p.y + p.height))
      let groupHeight := maxY - minY
      groupPositions.map (fun p => { p with y := p.y - minY + currentY }) ++
      groupedGo cfg rest (currentY + groupHeight + cfg.spacing * 2)

/-- Source `applyAspectGroupedLayout(images)`. -/
def applyAspectGroupedLayout (cfg : Config) (images : List Image) : List Placement :=
  groupedGo cfg (groupImagesByAspectRatio images) cfg.margin

/-- The per-placement body of `applyOrganicStackLayout`'s `forEach`: for
`index > 0` with stacking allowed, jitter `x`/`y` by
`(Math.random() - 0.5) * (spacing * 0.5)` — the two samples are supplied
by the injected stream `rand` — and clamp into the canvas margins. -/
def organicTransform (cfg : Config) (rand : ℕ → ℚ × ℚ) (index : ℕ)
    (pos : Placement) : Placement :=
  if cfg.allowStacking = true ∧ 0 < index then
    let maxOffset := cfg.spacing * (1/2)
    let jx := pos.x + ((rand index).1 - 1/2) * maxOffset
    let jy := pos.y + ((rand index).2 - 1/2) * maxOffset
    { pos with
      x := max cfg.margin (min jx (cfg.canvasWidth - pos.width - cfg.margin)),
      y := max cfg.margin (min jy (cfg.canvasHeight - pos.height - cfg.margin)) }
  else pos

/-- The indexed `forEach` of `applyOrganicStackLayout`. -/
def organicGo (cfg : Config) (rand : ℕ → ℚ × ℚ) :
    List Placement → ℕ → List Placement
  | [], _ => []
  | pos :: rest, index =>
      organicTransform cfg rand index pos :: organicGo cfg rand rest (index + 1)

/-- Source `applyOrganicStackLayout(images)` with the randomness source
injected. -/
def applyOrganicStackLayout (cfg : Config) (images : List Image)
    (rand : ℕ → ℚ × ℚ) : List Placement :=
  organicGo cfg rand (applyMasonryLayout cfg images) 0

/-- The `switch (this.currentLayout)` dispatch of
`applyNaturalAutoFitLayout` (unknown names fall through to natural
flow). -/
def runLayoutStrategy (layout : String) (cfg : Config) (images : List Image)
    (rand : ℕ → ℚ × ℚ) : List Placement :=
  match layout with
  | "natural-flow" => applyNaturalFlowLayout cfg images
  | "masonry" => applyMasonryLayout cfg images
  | "proportional-grid" => applyProportionalGridLayout cfg images
  | "aspect-grouped" => applyAspectGroupedLayout cfg images
  | "organic" => applyOrganicStackLayout cfg images rand
  | _ => applyNaturalFlowLayout cfg images

/-- Source `applyNaturalAutoFitLayout()` (its algorithmic core): run the
selected strategy, validate every rectangle, and on any failure discard
the result and fall back to `applyProportionalGridLayout`. -/
def applyNaturalAutoFitLayout (layout : String) (cfg : Config)
    (images : List Image) (rand : ℕ → ℚ × ℚ) : List Placement :=
  let positions := runLayoutStrategy layout cfg images rand
  if positions.all (fun pos =>
      validateAspectRatioPreservation pos.imageData pos.width pos.height) then
    positions
  else
    applyProportionalGridLayout cfg images

/-- C9: every one of the five strategies maps the empty image list to the
empty placement list (and, being total functions, signals no error). -/
theorem claim9_empty_input (cfg : Config) (rand : ℕ → ℚ × ℚ) :
    applyNaturalFlowLayout cfg [] = [] ∧
    applyMasonryLayout cfg [] = [] ∧
    applyProportionalGridLayout cfg [] = [] ∧
    applyAspectGroupedLayout cfg [] = [] ∧
    applyOrganicStackLayout cfg [] rand = [] := by
  cases h : cfg.prioritizeLargeImages <;>
    simp [applyNaturalFlowLayout, applyMasonryLayout, applyProportionalGridLayout,
      applyAspectGroupedLayout, applyOrganicStackLayout, groupImagesByAspectRatio,
      groupedGo, gridGo, masonryGo, organicGo, flowGo, finalizeNaturalRow,
      sortByAreaDesc, h]

theorem gridGo_getElem? (cfg : Config) (cols : ℕ) (bw bh : ℚ) :
    ∀ (l : List Image) (k i : ℕ),
      (gridGo cfg cols bw bh l k)[i]? =
        (l[i]?).map (fun image => gridPlace cfg cols bw bh image (k + i)) := by
  intro l
  induction l with
  | nil => intro k i; simp [gridGo]
  | cons a t ih =>
      intro k i
      cases i with
      | zero => simp [gridGo]
      | succ n =>
          have harith : k + 1 + n = k + (n + 1) := by omega
          simp only [gridGo, List.getElem?_cons_succ, ih (k + 1) n, harith]

theorem gridGo_mem (cfg : Config) (cols : ℕ) (bw bh : ℚ) :
    ∀ (l : List Image) (k : ℕ) (pos : Placement),
      pos ∈ gridGo cfg cols bw bh l k →
      ∃ img ∈ l, pos.imageData = img ∧
        pos.width = (scaleImagePreservingRatio cfg img bw bh).width ∧
        pos.height = (scaleImagePreservingRatio cfg img bw bh).height := by
  intro l
  induction l with
  | nil => intro k pos h; simp [gridGo] at h
  | cons a t ih =>
      intro k pos h
      simp only [gridGo, List.mem_cons] at h
      rcases h with h | h
      · exact ⟨a, List.mem_cons_self a t, by rw [h]; exact ⟨rfl, rfl, rfl⟩⟩
      · obtain ⟨img, hmem, hrest⟩ := ih (k + 1) pos h
        exact ⟨img, List.mem_cons_of_mem a hmem, hrest⟩

/-- Every rectangle produced by the proportional grid passes the strict
ratio validator (for positive image dimensions and a positive minimum
size): it is the engine's safe fallback. -/
theorem grid_validates (cfg : Config) (images : List Image)
    (hpos : ∀ img ∈ images, 0 < img.originalWidth ∧ 0 < img.originalHeight)
    (hmin : 0 < cfg.minImageSize) :
    ∀ pos ∈ applyProportionalGridLayout cfg images,
      validateAspectRatioPreservation pos.imageData pos.width pos.height = true := by
  intro pos hp
  unfold applyProportionalGridLayout at hp
  obtain ⟨img, hmem, hid, hw, hh⟩ := gridGo_mem cfg _ _ _ images 0 pos hp
  rw [hid, hw, hh]
  exact validate_of_scale cfg img _ _ (hpos img hmem).1 (hpos img hmem).2 hmin

theorem ceilSqrt_pos (n : ℕ) (hn : 1 ≤ n) : 0 < ceilSqrt n := by
  rcases Nat.eq_zero_or_pos (ceilSqrt n) with h | h
  · have := (ceilSqrt_spec n).1
    rw [h] at this
    omega
  · exact h

/-- C4: the proportional grid uses `cols = ceil(sqrt n)` and
`rows = ceil(n/cols)` (characterised as the least such values), places
image `i` at row-major cell `(i / cols, i mod cols)` — every image in
exactly one in-range cell, no two images sharing a cell — scaled into
the cell by `scaleImagePreservingRatio` and centered there
(`gridPlace`); on the two-image 1600x900 / 900x1600 scenario with the
default 1920x1080 configuration it yields `cols = 2`, `rows = 1`, and
both outputs pass the 0.01 ratio check. -/
theorem claim4_proportional_grid (cfg : Config) (images : List Image)
    (hne : 1 ≤ images.length) :
    (images.length ≤ ceilSqrt images.length * ceilSqrt images.length ∧
     ∀ m : ℕ, images.length ≤ m * m → ceilSqrt images.length ≤ m) ∧
    (images.length ≤
       ceilSqrt images.length * ceilDivNat images.length (ceilSqrt images.length) ∧
     ∀ r : ℕ, images.length ≤ ceilSqrt images.length * r →
       ceilDivNat images.length (ceilSqrt images.length) ≤ r) ∧
    (∀ i : ℕ,
       (applyProportionalGridLayout cfg images)[i]? =
         (images[i]?).map (fun image =>
           gridPlace cfg (ceilSqrt images.length)
             ((cfg.canvasWidth - 2 * cfg.margin -
                ((ceilSqrt images.length : ℚ) - 1) * cfg.spacing) /
               (ceilSqrt images.length : ℚ))
             ((cfg.canvasHeight - 2 * cfg.margin -
                ((ceilDivNat images.length (ceilSqrt images.length) : ℚ) - 1) * cfg.spacing) /
               (ceilDivNat images.length (ceilSqrt images.length) : ℚ))
             image i)) ∧
    (∀ i < images.length,
       i / ceilSqrt images.length < ceilDivNat images.length (ceilSqrt images.length) ∧
       i % ceilSqrt images.length < ceilSqrt images.length) ∧
    (∀ i j, i < images.length → j < images.length → i ≠ j →
       (i / ceilSqrt images.length, i % ceilSqrt images.length) ≠
       (j / ceilSqrt images.length, j % ceilSqrt images.length)) ∧
    (ceilSqrt 2 = 2 ∧ ceilDivNat 2 (ceilSqrt 2) = 1 ∧
     (applyProportionalGridLayout defaultConfig
        [⟨1, 1600, 900⟩, ⟨2, 900, 1600⟩]).all
       (fun pos =>
         validateAspectRatioPreservation pos.imageData pos.width pos.height) = true) := by
  have hcols : 0 < ceilSqrt images.length := ceilSqrt_pos _ hne
  refine ⟨ceilSqrt_spec images.length,
    ceilDivNat_spec images.length (ceilSqrt images.length) hcols (by omega),
    ?_, ?_, ?_, by decide, by decide, ?_⟩
  · intro i
    unfold applyProportionalGridLayout
    rw [gridGo_getElem? cfg _ _ _ images 0 i]
    simp
  · intro i hi
    exact ⟨ceilDivNat_div_lt images.length _ i hcols (by omega) hi,
      Nat.mod_lt i hcols⟩
  · intro i j hi hj hij hcell
    have h1 : i / ceilSqrt images.length = j / ceilSqrt images.length :=
      congrArg Prod.fst hcell
    have h2 : i % ceilSqrt images.length = j % ceilSqrt images.length :=
      congrArg Prod.snd hcell
    have hd1 := Nat.div_add_mod i (ceilSqrt images.length)
    rw [h1, h2] at hd1
    have hd2 := Nat.div_add_mod j (ceilSqrt images.length)
    apply hij
    omega
  · norm_num [applyProportionalGridLayout, gridGo, gridPlace, scaleImagePreservingRatio,
      validateAspectRatioPreservation, calculateAspectRatio, defaultConfig,
      ceilSqrt, ceilSqrtGo, ceilDivNat]

theorem claim4_proportional_grid_witness :
    1 ≤ ([⟨1, 1600, 900⟩, ⟨2, 900, 1600⟩] : List Image).length ∧
    ceilSqrt 2 = 2 ∧ ceilDivNat 2 (ceilSqrt 2) = 1 ∧
    (applyProportionalGridLayout defaultConfig
       [⟨1, 1600, 900⟩, ⟨2, 900, 1600⟩]).all
      (fun pos =>
        validateAspectRatioPreservation pos.imageData pos.width pos.height) = true :=
  ⟨by decide,
   (claim4_proportional_grid defaultConfig [⟨1, 1600, 900⟩, ⟨2, 900, 1600⟩]
     (by decide)).2.2.2.2.2⟩

/-- C1: `applyNaturalAutoFitLayout` runs the named strategy, checks every
rectangle with the 0.01-tolerance validator, returns the strategy's
placements when all pass and otherwise discards them in favour of
`applyProportionalGridLayout` on the same input; for positive image
dimensions and a positive minimum size the returned list always passes
validation. -/
theorem claim1_orchestrator_fallback (layout : String) (cfg : Config)
    (images : List Image) (rand : ℕ → ℚ × ℚ)
    (hpos : ∀ img ∈ images, 0 < img.originalWidth ∧ 0 < img.originalHeight)
    (hmin : 0 < cfg.minImageSize) :
    (applyNaturalAutoFitLayout layout cfg images rand =
      if (runLayoutStrategy layout cfg images rand).all (fun pos =>
          validateAspectRatioPreservation pos.imageData pos.width pos.height) then
        runLayoutStrategy layout cfg images rand
      else
        applyProportionalGridLayout cfg images) ∧
    ∀ pos ∈ applyNaturalAutoFitLayout layout cfg images rand,
      validateAspectRatioPreservation pos.imageData pos.width pos.height = true := by
  refine ⟨rfl, ?_⟩
  intro pos hp
  unfold applyNaturalAutoFitLayout at hp
  by_cases hall : (runLayoutStrategy layout cfg images rand).all (fun pos =>
      validateAspectRatioPreservation pos.imageData pos.width pos.height) = true
  · rw [if_pos hall] at hp
    exact List.all_eq_true.mp hall pos hp
  · rw [if_neg hall] at hp
    exact grid_validates cfg images hpos hmin pos hp

theorem claim1_orchestrator_fallback_witness :
    (applyNaturalAutoFitLayout "masonry" defaultConfig [⟨1, 16, 9⟩] (fun _ => (1/2, 1/2)) =
      if (runLayoutStrategy "masonry" defaultConfig [⟨1, 16, 9⟩] (fun _ => (1/2, 1/2))).all
          (fun pos =>
            validateAspectRatioPreservation pos.imageData pos.width pos.height) then
        runLayoutStrategy "masonry" defaultConfig [⟨1, 16, 9⟩] (fun _ => (1/2, 1/2))
      else
        applyProportionalGridLayout defaultConfig [⟨1, 16, 9⟩]) ∧
    (applyNaturalAutoFitLayout "masonry" defaultConfig [⟨1, 16, 9⟩]
        (fun _ => (1/2, 1/2))).all
      (fun pos =>
        validateAspectRatioPreservation pos.imageData pos.width pos.height) = true := by
  have h := claim1_orchestrator_fallback "masonry" defaultConfig [⟨1, 16, 9⟩]
    (fun _ => (1/2, 1/2))
    (by intro img hm; simp at hm; subst hm; exact ⟨by norm_num, by norm_num⟩)
    (by norm_num [defaultConfig])
  exact ⟨h.1, List.all_eq_true.mpr h.2⟩

theorem finalizeRowGo_length (cfg : Config) (rowY s : ℚ) :
    ∀ (items : List RowItem) (startX : ℚ),
      (finalizeRowGo cfg rowY s items startX).length = items.length := by
  intro items
  induction items with
  | nil => intro startX; simp [finalizeRowGo]
  | cons it rest ih => intro startX; simp [finalizeRowGo, ih]

theorem finalizeRowGo_getElem? (cfg : Config) (rowY s : ℚ) :
    ∀ (items : List RowItem) (startX : ℚ) (i : ℕ),
      (finalizeRowGo cfg rowY s items startX)[i]? =
        (items[i]?).map (fun it =>
          { imageData := it.image,
            x := startX + ((items.take i).map (fun u => u.naturalWidth * s)).sum +
              (i : ℚ) * cfg.spacing,
            y := rowY,
            width := max cfg.minImageSize (it.naturalWidth * s),
            height := max cfg.minImageSize (it.naturalHeight * s) }) := by
  intro items
  induction items with
  | nil => intro startX i; simp [finalizeRowGo]
  | cons it rest ih =>
      intro startX i
      cases i with
      | zero => simp [finalizeRowGo]
      | succ n =>
          simp only [finalizeRowGo, List.getElem?_cons_succ, ih]
          cases hop : rest[n]? with
          | none => simp
          | some u =>
              simp only [Option.map_some', List.take_succ_cons, List.map_cons,
                List.sum_cons, Option.some.injEq, Placement.mk.injEq, true_and, and_true]
              push_cast
              ring

/-- C3: a finalized flow row scales every entry by the single factor
`max(maxScaleDown, min(1, (availableWidth − (count−1)·spacing)/Σ natural
widths))`, lays the entries left-to-right from `margin` with
`spacing`-sized gaps (the cursor advancing by the pre-floor scaled
widths), and floors each stored dimension at `minImageSize`
independently — a per-axis floor that is not ratio-exact: a concrete row
exists whose output fails the 0.01 ratio check. -/
theorem claim3_row_finalization (cfg : Config) (rowImages : List RowItem)
    (rowY availableWidth : ℚ) :
    (let s := max cfg.maxScaleDown (min 1
        ((availableWidth - ((rowImages.length : ℚ) - 1) * cfg.spacing) /
          ((rowImages.map (fun v => v.naturalWidth)).sum)));
     (finalizeNaturalRow cfg rowImages rowY availableWidth).length = rowImages.length ∧
     ∀ i : ℕ,
       (finalizeNaturalRow cfg rowImages rowY availableWidth)[i]? =
         (rowImages[i]?).map (fun it =>
           { imageData := it.image,
             x := cfg.margin +
               ((rowImages.take i).map (fun u => u.naturalWidth * s)).sum +
               (i : ℚ) * cfg.spacing,
             y := rowY,
             width := max cfg.minImageSize (it.naturalWidth * s),
             height := max cfg.minImageSize (it.naturalHeight * s) })) ∧
    (∃ pos : Placement,
      (finalizeNaturalRow defaultConfig [⟨⟨1, 300, 50⟩, 6, 300, 50⟩] 20 1880)[0]? =
        some pos ∧
      validateAspectRatioPreservation pos.imageData pos.width pos.height = false) := by
  constructor
  · show (finalizeNaturalRow cfg rowImages rowY availableWidth).length =
        rowImages.length ∧ _
    constructor
    · cases rowImages with
      | nil => rfl
      | cons a t => simp [finalizeNaturalRow, finalizeRowGo_length]
    · intro i
      cases rowImages with
      | nil => simp [finalizeNaturalRow]
      | cons a t =>
          simp only [finalizeNaturalRow]
          exact finalizeRowGo_getElem? cfg rowY _ (a :: t) cfg.margin i
  · refine ⟨⟨⟨1, 300, 50⟩, 20, 20, 300, 100⟩, ?_, ?_⟩
    · norm_num [finalizeNaturalRow, finalizeRowGo, defaultConfig, min_def, max_def]
    · norm_num [validateAspectRatioPreservation, calculateAspectRatio]

theorem findShortestAux_le_best :
    ∀ (t : List ℚ) (best : ℕ × ℚ) (i : ℕ), (findShortestAux t best i).2 ≤ best.2 := by
  intro t
  induction t with
  | nil => intro best i; exact le_refl _
  | cons h rest ih =>
      intro best i
      by_cases hc : h < best.2
      · calc (findShortestAux (h :: rest) best i).2
            = (findShortestAux rest (i, h) (i + 1)).2 := by simp [findShortestAux, hc]
        _ ≤ h := ih (i, h) (i + 1)
        _ ≤ best.2 := le_of_lt hc
      · simpa [findShortestAux, hc] using ih best (i + 1)

theorem findShortestAux_le_mem :
    ∀ (t : List ℚ) (best : ℕ × ℚ) (i : ℕ) (x : ℚ), x ∈ t →
      (findShortestAux t best i).2 ≤ x := by
  intro t
  induction t with
  | nil => intro best i x hx; simp at hx
  | cons h rest ih =>
      intro best i x hx
      rcases List.mem_cons.mp hx with hx | hx
      · subst hx
        by_cases hc : x < best.2
        · calc (findShortestAux (x :: rest) best i).2
              = (findShortestAux rest (i, x) (i + 1)).2 := by simp [findShortestAux, hc]
          _ ≤ x := findShortestAux_le_best rest (i, x) (i + 1)
        · calc (findShortestAux (x :: rest) best i).2
              = (findShortestAux rest best (i + 1)).2 := by simp [findShortestAux, hc]
          _ ≤ best.2 := findShortestAux_le_best rest best (i + 1)
          _ ≤ x := le_of_not_lt hc
      · by_cases hc : h < best.2
        · calc (findShortestAux (h :: rest) best i).2
              = (findShortestAux rest (i, h) (i + 1)).2 := by simp [findShortestAux, hc]
          _ ≤ x := ih (i, h) (i + 1) x hx
        · calc (findShortestAux (h :: rest) best i).2
              = (findShortestAux rest best (i + 1)).2 := by simp [findShortestAux, hc]
          _ ≤ x := ih best (i + 1) x hx

theorem findShortestAux_cases :
    ∀ (t : List ℚ) (best : ℕ × ℚ) (i : ℕ),
      findShortestAux t best i = best ∨
      ∃ k, ∃ hk : k < t.length,
        (findShortestAux t best i).1 = i + k ∧
        (findShortestAux t best i).2 = t.get ⟨k, hk⟩ ∧
        t.get ⟨k, hk⟩ < best.2 := by
  intro t
  induction t with
  | nil => intro best i; left; rfl
  | cons h rest ih =>
      intro best i
      by_cases hc : h < best.2
      · right
        have hstep : findShortestAux (h :: rest) best i = findShortestAux rest (i, h) (i + 1) := by
          simp [findShortestAux, hc]
        rcases ih (i, h) (i + 1) with heq | ⟨k, hk, h1, h2, h3⟩
        · refine ⟨0, by simp, ?_, ?_, ?_⟩
          · rw [hstep, heq]; rfl
          · rw [hstep, heq]; rfl
          · exact hc
        · refine ⟨k + 1, by simpa using hk, ?_, ?_, ?_⟩
          · rw [hstep, h1]; omega
          · rw [hstep, h2]; rfl
          · calc rest.get ⟨k, hk⟩ < (i, h).2 := h3
            _ ≤ best.2 := le_of_lt hc
      · have hstep : findShortestAux (h :: rest) best i = findShortestAux rest best (i + 1) := by
          simp [findShortestAux, hc]
        rcases ih best (i + 1) with heq | ⟨k, hk, h1, h2, h3⟩
        · left; rw [hstep, heq]
        · right
          refine ⟨k + 1, by simpa using hk, ?_, ?_, ?_⟩
          · rw [hstep, h1]; omega
          · rw [hstep, h2]; rfl
          · exact h3

theorem findShortestAux_lowest :
    ∀ (t : List ℚ) (best : ℕ × ℚ) (i : ℕ), best.1 < i →
      ∀ k (hk : k < t.length), i + k < (findShortestAux t best i).1 →
        (findShortestAux t best i).2 < t.get ⟨k, hk⟩ := by
  intro t
  induction t with
  | nil => intro best i _ k hk; simp at hk
  | cons h rest ih =>
      intro best i hbest k hk hlt
      by_cases hc : h < best.2
      · have hstep : findShortestAux (h :: rest) best i = findShortestAux rest (i, h) (i + 1) := by
          simp [findShortestAux, hc]
        rw [hstep] at hlt ⊢
        cases k with
        | zero =>
            rcases findShortestAux_cases rest (i, h) (i + 1) with heq | ⟨m, hm, h1, h2, h3⟩
            · rw [heq] at hlt; simp at hlt
            · rw [h2]; exact h3
        | succ m =>
            have hm : m < rest.length := by simpa using hk
            have := ih (i, h) (i + 1) (by omega) m hm (by omega)
            simpa using this
      · have hstep2 : findShortestAux (h :: rest) best i = findShortestAux rest best (i + 1) := by
          simp [findShortestAux, hc]
        rw [hstep2] at hlt ⊢
        cases k with
        | zero =>
            rcases findShortestAux_cases rest best (i + 1) with heq | ⟨m, hm, h1, h2, h3⟩
            · rw [heq] at hlt; omega
            · rw [h2]
              calc rest.get ⟨m, hm⟩ < best.2 := h3
              _ ≤ h := le_of_not_lt hc
        | succ m =>
            have hm : m < rest.length := by simpa using hk
            have := ih best (i + 1) (by omega) m hm (by omega)
            simpa using this

/-- The shortest-column scan returns an in-range index holding a minimal
height, with ties broken by the lowest index (every strictly earlier
column is strictly taller). -/
theorem findShortestColumn_spec (hs : List ℚ) (hne : hs ≠ []) :
    ∃ hj : findShortestColumn hs < hs.length,
      (∀ k (hk : k < hs.length),
        hs.get ⟨findShortestColumn hs, hj⟩ ≤ hs.get ⟨k, hk⟩) ∧
      (∀ k (hk : k < hs.length), k < findShortestColumn hs →
        hs.get ⟨findShortestColumn hs, hj⟩ < hs.get ⟨k, hk⟩) := by
  match hs, hne with
  | h :: t, _ =>
    rcases findShortestAux_cases t (0, h) 1 with heq | ⟨k0, hk0, h1, h2, h3⟩
    · have hj0 : findShortestColumn (h :: t) = 0 := by
        simp [findShortestColumn, heq]
      rw [hj0]
      refine ⟨by simp, ?_, ?_⟩
      · intro k hk
        cases k with
        | zero => exact le_refl _
        | succ m =>
            have hm : m < t.length := by simpa using hk
            have hle : (findShortestAux t (0, h) 1).2 ≤ t.get ⟨m, hm⟩ :=
              findShortestAux_le_mem t (0, h) 1 _ (t.get_mem _ _)
            rw [heq] at hle
            simpa using hle
      · intro k hk hklt
        omega
    · have hj1 : findShortestColumn (h :: t) = 1 + k0 := by
        simp [findShortestColumn, h1]
      have hjlt : findShortestColumn (h :: t) < (h :: t).length := by
        rw [hj1]; simp; omega
      refine ⟨hjlt, ?_, ?_⟩
      · intro k hk
        have hval : (h :: t).get ⟨findShortestColumn (h :: t), hjlt⟩ =
            (findShortestAux t (0, h) 1).2 := by
          rw [h2]
          have : (h :: t).get ⟨findShortestColumn (h :: t), hjlt⟩ = t.get ⟨k0, hk0⟩ := by
            have hcast : findShortestColumn (h :: t) = k0 + 1 := by omega
            simp [List.get_cons_succ' , hcast]
          exact this
        rw [hval]
        cases k with
        | zero =>
            have : (findShortestAux t (0, h) 1).2 < h := by rw [h2]; exact h3
            exact le_of_lt this
        | succ m =>
            have hm : m < t.length := by simpa using hk
            have := findShortestAux_le_mem t (0, h) 1 _ (t.get_mem m hm)
            simpa using this
      · intro k hk hklt
        have hval : (h :: t).get ⟨findShortestColumn (h :: t), hjlt⟩ =
            (findShortestAux t (0, h) 1).2 := by
          rw [h2]
          have hcast : findShortestColumn (h :: t) = k0 + 1 := by omega
          simp [hcast]
        rw [hval]
        cases k with
        | zero =>
            have : (findShortestAux t (0, h) 1).2 < h := by rw [h2]; exact h3
            simpa using this
        | succ m =>
            have hm : m < t.length := by simpa using hk
            have hlow := findShortestAux_lowest t (0, h) 1 (by omega) m hm (by omega)
            simpa using hlow

/-- One greedy placement keeps the pairwise column-height gap below
`C` as long as the added amount `h + s` is nonnegative and at most `C`. -/
theorem shortest_set_balance (hs : List ℚ) (h s C : ℚ)
    (hpair : ∀ i j (hi : i < hs.length) (hj : j < hs.length),
      hs.get ⟨i, hi⟩ - hs.get ⟨j, hj⟩ ≤ C)
    (hd0 : 0 ≤ h + s) (hdC : h + s ≤ C) :
    ∀ i j (hi : i < (hs.set (findShortestColumn hs)
        (hs.getD (findShortestColumn hs) 0 + h + s)).length)
      (hj : j < (hs.set (findShortestColumn hs)
        (hs.getD (findShortestColumn hs) 0 + h + s)).length),
      (hs.set (findShortestColumn hs) (hs.getD (findShortestColumn hs) 0 + h + s)).get ⟨i, hi⟩ -
      (hs.set (findShortestColumn hs) (hs.getD (findShortestColumn hs) 0 + h + s)).get ⟨j, hj⟩ ≤ C := by
  rcases List.eq_nil_or_concat hs with hnil | ⟨_, _, hcons⟩
  · subst hnil
    intro i j hi hj
    simp at hi
  · have hne : hs ≠ [] := by rw [hcons]; simp
    obtain ⟨hjlt, hmin, hties⟩ := findShortestColumn_spec hs hne
    have hgetD : hs.getD (findShortestColumn hs) 0 =
        hs.get ⟨findShortestColumn hs, hjlt⟩ := by
      simp [List.getD_eq_getElem?_getD, List.getElem?_eq_getElem hjlt,
        List.get_eq_getElem]
    intro i j hi hj
    have hi' : i < hs.length := by simpa using hi
    have hj' : j < hs.length := by simpa using hj
    have hset_get : ∀ k (hk : k < hs.length)
        (hk2 : k < (hs.set (findShortestColumn hs)
          (hs.getD (findShortestColumn hs) 0 + h + s)).length),
        (hs.set (findShortestColumn hs)
          (hs.getD (findShortestColumn hs) 0 + h + s)).get ⟨k, hk2⟩ =
          if findShortestColumn hs = k then hs.get ⟨findShortestColumn hs, hjlt⟩ + h + s
          else hs.get ⟨k, hk⟩ := by
      intro k hk hk2
      by_cases hmk : findShortestColumn hs = k
      · subst hmk
        simp [List.get_eq_getElem, List.getElem_set_self, hgetD,
          List.getD_eq_getElem?_getD, List.getElem?_eq_getElem hjlt]
      · simp [List.get_eq_getElem, List.getElem_set_ne, hmk]
    rw [hset_get i hi' hi, hset_get j hj' hj]
    by_cases hmi : findShortestColumn hs = i
    · by_cases hmj : findShortestColumn hs = j
      · rw [if_pos hmi, if_pos hmj]
        linarith
      · rw [if_pos hmi, if_neg hmj]
        linarith [hmin j hj']
    · by_cases hmj : findShortestColumn hs = j
      · rw [if_neg hmi, if_pos hmj]
        linarith [hpair i (findShortestColumn hs) hi' hjlt]
      · rw [if_neg hmi, if_neg hmj]
        exact hpair i j hi' hj'

theorem masonryGo_balance (cfg : Config) (columnWidth : ℚ) :
    ∀ (l : List Image) (hs : List ℚ) (C : ℚ),
      (∀ i j (hi : i < hs.length) (hj : j < hs.length),
        hs.get ⟨i, hi⟩ - hs.get ⟨j, hj⟩ ≤ C) →
      (∀ img ∈ l,
        0 ≤ (scaleImagePreservingRatio cfg img columnWidth (columnWidth * 2)).height +
          cfg.spacing ∧
        (scaleImagePreservingRatio cfg img columnWidth (columnWidth * 2)).height +
          cfg.spacing ≤ C) →
      ∀ i j (hi : i < ((masonryGo cfg columnWidth l hs).2).length)
        (hj : j < ((masonryGo cfg columnWidth l hs).2).length),
        ((masonryGo cfg columnWidth l hs).2).get ⟨i, hi⟩ -
          ((masonryGo cfg columnWidth l hs).2).get ⟨j, hj⟩ ≤ C := by
  intro l
  induction l with
  | nil => intro hs C hpair _ i j hi hj; exact hpair i j hi hj
  | cons img rest ih =>
      intro hs C hpair hbound i j hi hj
      have hb := hbound img (List.mem_cons_self img rest)
      have hb0 : 0 ≤ (scaleImagePreservingRatio cfg img columnWidth (columnWidth * 2)).height +
          cfg.spacing := hb.1
      have hstep := shortest_set_balance hs
        (scaleImagePreservingRatio cfg img columnWidth (columnWidth * 2)).height
        cfg.spacing C hpair hb.1 hb.2
      simp only [masonryGo] at hi hj ⊢
      exact ih _ C hstep (fun im hm => hbound im (List.mem_cons_of_mem img hm)) i j hi hj

theorem masonryGo_heights (cfg : Config) (columnWidth : ℚ) :
    ∀ (l : List Image) (hs : List ℚ),
      ((masonryGo cfg columnWidth l hs).1).map (fun p => p.height) =
        l.map (fun img =>
          (scaleImagePreservingRatio cfg img columnWidth (columnWidth * 2)).height) := by
  intro l
  induction l with
  | nil => intro hs; rfl
  | cons img rest ih => intro hs; simp [masonryGo, ih]

theorem masonryGo_mem (cfg : Config) (columnWidth : ℚ) :
    ∀ (l : List Image) (hs : List ℚ) (pos : Placement),
      pos ∈ (masonryGo cfg columnWidth l hs).1 →
      ∃ img ∈ l, pos.imageData = img ∧
        pos.width = (scaleImagePreservingRatio cfg img columnWidth (columnWidth * 2)).width ∧
        pos.height = (scaleImagePreservingRatio cfg img columnWidth (columnWidth * 2)).height := by
  intro l
  induction l with
  | nil => intro hs pos h; simp [masonryGo] at h
  | cons img rest ih =>
      intro hs pos h
      simp only [masonryGo, List.mem_cons] at h
      rcases h with h | h
      · exact ⟨img, List.mem_cons_self img rest, by rw [h]; exact ⟨rfl, rfl, rfl⟩⟩
      · obtain ⟨im, hmem, hrest⟩ := ih _ pos h
        exact ⟨im, List.mem_cons_of_mem img hmem, hrest⟩

theorem qMaxList_le (l : List ℚ) (x : ℚ) (hx : x ∈ l) : x ≤ qMaxList l := by
  have haux1 : ∀ (xs : List ℚ) (a : ℚ), a ≤ xs.foldl max a := by
    intro xs
    induction xs with
    | nil => intro a; exact le_refl _
    | cons y ys ih =>
        intro a
        calc a ≤ max a y := le_max_left a y
        _ ≤ ys.foldl max (max a y) := ih (max a y)
  have haux2 : ∀ (xs : List ℚ) (a x : ℚ), x ∈ xs → x ≤ xs.foldl max a := by
    intro xs
    induction xs with
    | nil => intro a x h; simp at h
    | cons y ys ih =>
        intro a x h
        rcases List.mem_cons.mp h with h | h
        · subst h
          calc x ≤ max a x := le_max_right a x
          _ ≤ ys.foldl max (max a x) := haux1 ys (max a x)
        · exact ih (max a y) x h
  cases l with
  | nil => simp at hx
  | cons y ys =>
      rcases List.mem_cons.mp hx with h | h
      · subst h; exact haux1 ys x
      · exact haux2 ys y x h

theorem insertByAreaDesc_perm (img : Image) :
    ∀ l : List Image, (insertByAreaDesc img l).Perm (img :: l) := by
  intro l
  induction l with
  | nil => exact List.Perm.refl _
  | cons b rest ih =>
      by_cases hc : b.originalWidth * b.originalHeight <
          img.originalWidth * img.originalHeight
      · simp only [insertByAreaDesc, if_pos hc]
        exact List.Perm.refl _
      · simp only [insertByAreaDesc, if_neg hc]
        exact List.Perm.trans (List.Perm.cons b ih) (List.Perm.swap img b rest)

theorem sortByAreaDesc_perm : ∀ l : List Image, (sortByAreaDesc l).Perm l := by
  intro l
  induction l with
  | nil => exact List.Perm.refl _
  | cons a rest ih =>
      exact List.Perm.trans (insertByAreaDesc_perm a (sortByAreaDesc rest))
        (List.Perm.cons a ih)

theorem sortedImages_perm (cfg : Config) (images : List Image) :
    (if cfg.prioritizeLargeImages then sortByAreaDesc images else images).Perm images := by
  by_cases h : cfg.prioritizeLargeImages
  · rw [if_pos h]; exact sortByAreaDesc_perm images
  · rw [if_neg h]

/-- C5: masonry uses `columns = clamp(ceil(sqrt n), 2, 5)` and
`columnWidth = (availableWidth − (columns−1)·spacing)/columns`, starts
every column height at `margin`, places each image into the currently
shortest column (ties to the lowest index), sizes it via
`scaleImagePreservingRatio(image, columnWidth, columnWidth·2)`, adds
`height + spacing` to that column after each placement, and every output
rectangle passes the 0.01 ratio check (ratio-exact, no per-axis floor). -/
theorem claim5_masonry_layout (cfg : Config) (images : List Image)
    (_hne : images ≠ [])
    (hpos : ∀ img ∈ images, 0 < img.originalWidth ∧ 0 < img.originalHeight)
    (hmin : 0 < cfg.minImageSize) :
    (applyMasonryLayout cfg images =
      (masonryGo cfg
        ((cfg.canvasWidth - 2 * cfg.margin -
          (((max 2 (min 5 (ceilSqrt images.length)) : ℕ) : ℚ) - 1) * cfg.spacing) /
          ((max 2 (min 5 (ceilSqrt images.length)) : ℕ) : ℚ))
        (if cfg.prioritizeLargeImages then sortByAreaDesc images else images)
        (List.replicate (max 2 (min 5 (ceilSqrt images.length))) cfg.margin)).1) ∧
    (∀ hs : List ℚ, hs ≠ [] →
      ∃ hj : findShortestColumn hs < hs.length,
        (∀ k (hk : k < hs.length),
          hs.get ⟨findShortestColumn hs, hj⟩ ≤ hs.get ⟨k, hk⟩) ∧
        (∀ k (hk : k < hs.length), k < findShortestColumn hs →
          hs.get ⟨findShortestColumn hs, hj⟩ < hs.get ⟨k, hk⟩)) ∧
    (∀ (image : Image) (rest : List Image) (hs : List ℚ) (columnWidth : ℚ),
      masonryGo cfg columnWidth (image :: rest) hs =
        ({ imageData := image,
           x := cfg.margin + (findShortestColumn hs : ℚ) * (columnWidth + cfg.spacing),
           y := hs.getD (findShortestColumn hs) 0,
           width := (scaleImagePreservingRatio cfg image columnWidth (columnWidth * 2)).width,
           height := (scaleImagePreservingRatio cfg image columnWidth (columnWidth * 2)).height } ::
         (masonryGo cfg columnWidth rest (hs.set (findShortestColumn hs)
           (hs.getD (findShortestColumn hs) 0 +
             (scaleImagePreservingRatio cfg image columnWidth (columnWidth * 2)).height +
             cfg.spacing))).1,
         (masonryGo cfg columnWidth rest (hs.set (findShortestColumn hs)
           (hs.getD (findShortestColumn hs) 0 +
             (scaleImagePreservingRatio cfg image columnWidth (columnWidth * 2)).height +
             cfg.spacing))).2)) ∧
    (∀ pos ∈ applyMasonryLayout cfg images,
      validateAspectRatioPreservation pos.imageData pos.width pos.height = true) := by
  refine ⟨rfl, findShortestColumn_spec, fun image rest hs columnWidth => rfl, ?_⟩
  intro pos hp
  unfold applyMasonryLayout at hp
  obtain ⟨img, hmem, hid, hw, hh⟩ := masonryGo_mem cfg _ _ _ pos hp
  have himg : img ∈ images := (sortedImages_perm cfg images).mem_iff.mp hmem
  rw [hid, hw, hh]
  exact validate_of_scale cfg img _ _ (hpos img himg).1 (hpos img himg).2 hmin

theorem claim5_masonry_layout_witness :
    (applyMasonryLayout defaultConfig [⟨1, 500, 500⟩]).all
      (fun pos =>
        validateAspectRatioPreservation pos.imageData pos.width pos.height) = true :=
  List.all_eq_true.mpr
    ((claim5_masonry_layout defaultConfig [⟨1, 500, 500⟩] (by decide)
      (by intro img hm; simp at hm; subst hm; exact ⟨by norm_num, by norm_num⟩)
      (by norm_num [defaultConfig])).2.2.2)

/-- C7 is false as stated: on five 500x500 squares with the default
configuration masonry uses 3 columns, every placed rectangle has height
620, and the final column heights [1280, 1280, 650] differ by 630,
which is not less than the tallest placed image's height (the greedy
update adds `height + spacing`, not just `height`). -/
theorem claim7_counterexample :
    max 2 (min 5 (ceilSqrt 5)) = 3 ∧
    applyMasonryLayout defaultConfig
        [⟨1, 500, 500⟩, ⟨2, 500, 500⟩, ⟨3, 500, 500⟩, ⟨4, 500, 500⟩, ⟨5, 500, 500⟩] =
      (masonryGo defaultConfig 620
        [⟨1, 500, 500⟩, ⟨2, 500, 500⟩, ⟨3, 500, 500⟩, ⟨4, 500, 500⟩, ⟨5, 500, 500⟩]
        (List.replicate 3 20)).1 ∧
    (masonryGo defaultConfig 620
        [⟨1, 500, 500⟩, ⟨2, 500, 500⟩, ⟨3, 500, 500⟩, ⟨4, 500, 500⟩, ⟨5, 500, 500⟩]
        (List.replicate 3 20)).2 = [1280, 1280, 650] ∧
    (applyMasonryLayout defaultConfig
        [⟨1, 500, 500⟩, ⟨2, 500, 500⟩, ⟨3, 500, 500⟩, ⟨4, 500, 500⟩, ⟨5, 500, 500⟩]).map
      (fun p => p.height) = [620, 620, 620, 620, 620] ∧
    ¬ ((1280 : ℚ) - 650 < 620) := by
  refine ⟨by decide, ?_, ?_, ?_, by norm_num⟩
  · norm_num [applyMasonryLayout, defaultConfig, ceilSqrt, ceilSqrtGo, List.replicate]
  · norm_num [masonryGo, findShortestColumn, findShortestAux, scaleImagePreservingRatio,
      calculateAspectRatio, defaultConfig, List.replicate, List.set, List.getD]
  · norm_num [applyMasonryLayout, masonryGo, findShortestColumn, findShortestAux,
      scaleImagePreservingRatio, calculateAspectRatio, defaultConfig, ceilSqrt,
      ceilSqrtGo, List.replicate, List.set, List.getD]

/-- C7 amended: the final masonry column heights differ pairwise by at
most the tallest placed rectangle's height plus the spacing (the greedy
shortest-column update adds `height + spacing`); on five equal squares
with the default configuration: 3 columns, heights [1280, 1280, 650],
largest difference 630 = 620 + 10. -/
theorem claim7_masonry_balance_bound (cfg : Config) (images : List Image)
    (hne : images ≠ [])
    (hpos : ∀ img ∈ images, 0 < img.originalWidth ∧ 0 < img.originalHeight)
    (hmin : 0 < cfg.minImageSize) (hsp : 0 ≤ cfg.spacing) :
    (let columnWidth := (cfg.canvasWidth - 2 * cfg.margin -
        (((max 2 (min 5 (ceilSqrt images.length)) : ℕ) : ℚ) - 1) * cfg.spacing) /
        ((max 2 (min 5 (ceilSqrt images.length)) : ℕ) : ℚ);
     let sortedImages := if cfg.prioritizeLargeImages then sortByAreaDesc images else images;
     let finalHeights := (masonryGo cfg columnWidth sortedImages
        (List.replicate (max 2 (min 5 (ceilSqrt images.length))) cfg.margin)).2;
     let tallest := qMaxList ((applyMasonryLayout cfg images).map (fun p => p.height));
     ∀ i j (hi : i < finalHeights.length) (hj : j < finalHeights.length),
       finalHeights.get ⟨i, hi⟩ - finalHeights.get ⟨j, hj⟩ ≤ tallest + cfg.spacing) ∧
    ((masonryGo defaultConfig 620
        [⟨1, 500, 500⟩, ⟨2, 500, 500⟩, ⟨3, 500, 500⟩, ⟨4, 500, 500⟩, ⟨5, 500, 500⟩]
        (List.replicate 3 20)).2 = [1280, 1280, 650] ∧
     (1280 : ℚ) - 650 ≤ 620 + 10) := by
  constructor
  · intro columnWidth sortedImages finalHeights tallest i j hi hj
    have hlen : sortedImages.length = images.length :=
      (sortedImages_perm cfg images).length_eq
    have hsne : sortedImages ≠ [] := by
      intro h
      apply hne
      apply List.eq_nil_of_length_eq_zero
      rw [← hlen, h]
      rfl
    have htal : (applyMasonryLayout cfg images).map (fun p => p.height) =
        sortedImages.map (fun img =>
          (scaleImagePreservingRatio cfg img columnWidth (columnWidth * 2)).height) :=
      masonryGo_heights cfg columnWidth sortedImages _
    have hle : ∀ img ∈ sortedImages,
        (scaleImagePreservingRatio cfg img columnWidth (columnWidth * 2)).height ≤ tallest := by
      intro img hm
      have : (scaleImagePreservingRatio cfg img columnWidth (columnWidth * 2)).height ∈
          (applyMasonryLayout cfg images).map (fun p => p.height) := by
        rw [htal]
        exact List.mem_map_of_mem _ hm
      exact qMaxList_le _ _ this
    have hposheight : ∀ img ∈ sortedImages,
        0 < (scaleImagePreservingRatio cfg img columnWidth (columnWidth * 2)).height := by
      intro img hm
      have himg : img ∈ images := (sortedImages_perm cfg images).mem_iff.mp hm
      exact (scaleImagePreservingRatio_exact cfg img _ _ (hpos img himg).1
        (hpos img himg).2 hmin).1
    obtain ⟨img0, hm0⟩ := List.exists_mem_of_ne_nil sortedImages hsne
    have hC0 : 0 ≤ tallest + cfg.spacing := by
      have h1 := hposheight img0 hm0
      have h2 := hle img0 hm0
      linarith
    have hInit : ∀ i j
        (hi : i < (List.replicate (max 2 (min 5 (ceilSqrt images.length))) cfg.margin).length)
        (hj : j < (List.replicate (max 2 (min 5 (ceilSqrt images.length))) cfg.margin).length),
        (List.replicate (max 2 (min 5 (ceilSqrt images.length))) cfg.margin).get ⟨i, hi⟩ -
        (List.replicate (max 2 (min 5 (ceilSqrt images.length))) cfg.margin).get ⟨j, hj⟩ ≤
          tallest + cfg.spacing := by
      intro i j hi hj
      simp only [List.get_eq_getElem, List.getElem_replicate]
      simpa using hC0
    have hBound : ∀ img ∈ sortedImages,
        0 ≤ (scaleImagePreservingRatio cfg img columnWidth (columnWidth * 2)).height +
          cfg.spacing ∧
        (scaleImagePreservingRatio cfg img columnWidth (columnWidth * 2)).height +
          cfg.spacing ≤ tallest + cfg.spacing := by
      intro img hm
      have h1 := hposheight img hm
      have h2 := hle img hm
      exact ⟨by linarith, by linarith⟩
    exact masonryGo_balance cfg columnWidth sortedImages _ (tallest + cfg.spacing)
      hInit hBound i j hi hj
  · refine ⟨?_, by norm_num⟩
    norm_num [masonryGo, findShortestColumn, findShortestAux, scaleImagePreservingRatio,
      calculateAspectRatio, defaultConfig, List.replicate, List.set, List.getD]

theorem claim7_masonry_balance_bound_witness :
    (masonryGo defaultConfig 620
        [⟨1, 500, 500⟩, ⟨2, 500, 500⟩, ⟨3, 500, 500⟩, ⟨4, 500, 500⟩, ⟨5, 500, 500⟩]
        (List.replicate 3 20)).2 = [1280, 1280, 650] ∧
    (1280 : ℚ) - 650 ≤ 620 + 10 :=
  (claim7_masonry_balance_bound defaultConfig
    [⟨1, 500, 500⟩, ⟨2, 500, 500⟩, ⟨3, 500, 500⟩, ⟨4, 500, 500⟩, ⟨5, 500, 500⟩]
    (by decide)
    (by
      intro img hm
      simp at hm
      rcases hm with h | h | h | h | h <;> subst h <;>
        exact ⟨by norm_num, by norm_num⟩)
    (by norm_num [defaultConfig]) (by norm_num [defaultConfig])).2

theorem organicGo_getElem? (cfg : Config) (rand : ℕ → ℚ × ℚ) :
    ∀ (l : List Placement) (k i : ℕ),
      (organicGo cfg rand l k)[i]? =
        (l[i]?).map (fun pos => organicTransform cfg rand (k + i) pos) := by
  intro l
  induction l with
  | nil => intro k i; simp [organicGo]
  | cons p t ih =>
      intro k i
      cases i with
      | zero => simp [organicGo]
      | succ n =>
          have harith : k + 1 + n = k + (n + 1) := by omega
          simp only [organicGo, List.getElem?_cons_succ, ih (k + 1) n, harith]

/-- C6 is false as stated: the organic strategy leaves the placement at
index 0 (and, without stacking, every placement) unjittered and
unclamped; a single 100x10000 image on the default 1920x1080 canvas
produces a placement whose bottom edge 10020 overflows
`canvasHeight − margin = 1060`. -/
theorem claim6_counterexample :
    applyOrganicStackLayout defaultConfig [⟨1, 100, 10000⟩] (fun _ => (1/2, 1/2)) =
      [{ imageData := ⟨1, 100, 10000⟩, x := 20, y := 20, width := 100, height := 10000 }] ∧
    ¬ ((20 : ℚ) + 10000 ≤ 1080 - 20) := by
  refine ⟨?_, by norm_num⟩
  norm_num [applyOrganicStackLayout, organicGo, organicTransform, applyMasonryLayout,
    masonryGo, findShortestColumn, findShortestAux, scaleImagePreservingRatio,
    calculateAspectRatio, defaultConfig, ceilSqrt, ceilSqrtGo, List.replicate,
    List.set, List.getD]

/-- C6 amended: only the placements with index > 0 are jittered and
clamped (when stacking is allowed), and for those the clamp keeps the
rectangle inside the canvas margins whenever it fits between them; the
index-0 placement (and every placement when stacking is off) is
masonry's raw output and may overflow. -/
theorem claim6_organic_clamped (cfg : Config) (images : List Image)
    (rand : ℕ → ℚ × ℚ) (i : ℕ) (pos : Placement)
    (hstack : cfg.allowStacking = true) (hi : 0 < i)
    (hget : (applyOrganicStackLayout cfg images rand)[i]? = some pos)
    (hw : pos.width ≤ cfg.canvasWidth - 2 * cfg.margin)
    (hh : pos.height ≤ cfg.canvasHeight - 2 * cfg.margin) :
    cfg.margin ≤ pos.x ∧ pos.x + pos.width ≤ cfg.canvasWidth - cfg.margin ∧
    cfg.margin ≤ pos.y ∧ pos.y + pos.height ≤ cfg.canvasHeight - cfg.margin := by
  unfold applyOrganicStackLayout at hget
  rw [organicGo_getElem?] at hget
  cases hm : (applyMasonryLayout cfg images)[i]? with
  | none => rw [hm] at hget; simp at hget
  | some mpos =>
      rw [hm] at hget
      simp only [Option.map_some', Option.some.injEq] at hget
      have hcond : cfg.allowStacking = true ∧ 0 < 0 + i := ⟨hstack, by omega⟩
      rw [organicTransform, if_pos hcond] at hget
      subst hget
      simp only at hw hh ⊢
      refine ⟨le_max_left _ _, ?_, le_max_left _ _, ?_⟩
      · have h1 : max cfg.margin (min (mpos.x + ((rand (0 + i)).1 - 1/2) *
            (cfg.spacing * (1/2))) (cfg.canvasWidth - mpos.width - cfg.margin)) ≤
            cfg.canvasWidth - mpos.width - cfg.margin :=
          max_le (by linarith) (min_le_right _ _)
        linarith
      · have h1 : max cfg.margin (min (mpos.y + ((rand (0 + i)).2 - 1/2) *
            (cfg.spacing * (1/2))) (cfg.canvasHeight - mpos.height - cfg.margin)) ≤
            cfg.canvasHeight - mpos.height - cfg.margin :=
          max_le (by linarith) (min_le_right _ _)
        linarith

theorem claim6_organic_clamped_witness :
    defaultConfig.margin ≤ (⟨⟨2, 500, 500⟩, 965, 20, 935, 935⟩ : Placement).x ∧
    (⟨⟨2, 500, 500⟩, 965, 20, 935, 935⟩ : Placement).x +
      (⟨⟨2, 500, 500⟩, 965, 20, 935, 935⟩ : Placement).width ≤
      defaultConfig.canvasWidth - defaultConfig.margin ∧
    defaultConfig.margin ≤ (⟨⟨2, 500, 500⟩, 965, 20, 935, 935⟩ : Placement).y ∧
    (⟨⟨2, 500, 500⟩, 965, 20, 935, 935⟩ : Placement).y +
      (⟨⟨2, 500, 500⟩, 965, 20, 935, 935⟩ : Placement).height ≤
      defaultConfig.canvasHeight - defaultConfig.margin :=
  claim6_organic_clamped defaultConfig [⟨1, 500, 500⟩, ⟨2, 500, 500⟩]
    (fun _ => (1/2, 1/2)) 1 ⟨⟨2, 500, 500⟩, 965, 20, 935, 935⟩ rfl (by omega)
    (by
      norm_num [applyOrganicStackLayout, organicGo, organicTransform,
        applyMasonryLayout, masonryGo, findShortestColumn, findShortestAux,
        scaleImagePreservingRatio, calculateAspectRatio, defaultConfig, ceilSqrt,
        ceilSqrtGo, List.replicate, List.set, List.getD])
    (by norm_num [defaultConfig]) (by norm_num [defaultConfig])

theorem masonryGo_map (cfg : Config) (columnWidth : ℚ) :
    ∀ (l : List Image) (hs : List ℚ),
      ((masonryGo cfg columnWidth l hs).1).map (fun p => p.imageData) = l := by
  intro l
  induction l with
  | nil => intro hs; rfl
  | cons img rest ih => intro hs; simp [masonryGo, ih]

theorem gridGo_map (cfg : Config) (cols : ℕ) (bw bh : ℚ) :
    ∀ (l : List Image) (k : ℕ),
      (gridGo cfg cols bw bh l k).map (fun p => p.imageData) = l := by
  intro l
  induction l with
  | nil => intro k; rfl
  | cons img rest ih => intro k; simp [gridGo, gridPlace, ih]

theorem organicGo_map (cfg : Config) (rand : ℕ → ℚ × ℚ) :
    ∀ (l : List Placement) (k : ℕ),
      (organicGo cfg rand l k).map (fun p => p.imageData) =
        l.map (fun p => p.imageData) := by
  intro l
  induction l with
  | nil => intro k; rfl
  | cons p t ih =>
      intro k
      have htr : (organicTransform cfg rand k p).imageData = p.imageData := by
        unfold organicTransform
        split <;> rfl
      simp [organicGo, ih, htr]

theorem finalizeRowGo_map (cfg : Config) (rowY s : ℚ) :
    ∀ (items : List RowItem) (startX : ℚ),
      (finalizeRowGo cfg rowY s items startX).map (fun p => p.imageData) =
        items.map (fun it => it.image) := by
  intro items
  induction items with
  | nil => intro startX; rfl
  | cons it rest ih => intro startX; simp [finalizeRowGo, ih]

theorem finalizeNaturalRow_map (cfg : Config) :
    ∀ (rowImages : List RowItem) (rowY availableWidth : ℚ),
      (finalizeNaturalRow cfg rowImages rowY availableWidth).map (fun p => p.imageData) =
        rowImages.map (fun it => it.image) := by
  intro rowImages rowY availableWidth
  cases rowImages with
  | nil => rfl
  | cons a t => simp only [finalizeNaturalRow]; exact finalizeRowGo_map cfg rowY _ (a :: t) cfg.margin

theorem flowGo_map (cfg : Config) (availableWidth : ℚ) :
    ∀ (l : List Image) (rowY rowX rowH : ℚ) (rowImages : List RowItem),
      (flowGo cfg availableWidth l rowY rowX rowH rowImages).map (fun p => p.imageData) =
        rowImages.map (fun it => it.image) ++ l := by
  intro l
  induction l with
  | nil =>
      intro rowY rowX rowH rowImages
      simp [flowGo, finalizeNaturalRow_map]
  | cons image rest ih =>
      intro rowY rowX rowH rowImages
      by_cases hbreak : availableWidth + cfg.margin <
          rowX + min image.originalWidth (availableWidth * (3/10)) ∧ rowImages ≠ []
      · simp only [flowGo, if_pos hbreak, List.map_append, finalizeNaturalRow_map, ih]
        simp
      · simp only [flowGo, if_neg hbreak, ih]
        simp

theorem applyNaturalFlowLayout_map (cfg : Config) (images : List Image) :
    (applyNaturalFlowLayout cfg images).map (fun p => p.imageData) =
      (if cfg.prioritizeLargeImages then sortByAreaDesc images else images) := by
  unfold applyNaturalFlowLayout
  rw [flowGo_map]
  rfl

theorem applyNaturalFlowLayout_map_perm (cfg : Config) (images : List Image) :
    ((applyNaturalFlowLayout cfg images).map (fun p => p.imageData)).Perm images := by
  rw [applyNaturalFlowLayout_map]
  exact sortedImages_perm cfg images

theorem addToGroups_flatten_perm :
    ∀ (acc : List (String × List Image)) (g : String) (img : Image),
      (((addToGroups acc g img).map Prod.snd).flatten).Perm
        (img :: ((acc.map Prod.snd).flatten)) := by
  intro acc
  induction acc with
  | nil => intro g img; simp [addToGroups]
  | cons kv rest ih =>
      intro g img
      obtain ⟨k, xs⟩ := kv
      by_cases hk : k = g
      · simp only [addToGroups, if_pos hk, List.map_cons, List.flatten_cons]
        have h1 : (xs ++ [img]).Perm (img :: xs) := List.perm_append_singleton img xs
        have h2 := h1.append_right ((rest.map Prod.snd).flatten)
        simp only [List.cons_append] at h2
        exact h2
      · simp only [addToGroups, if_neg hk, List.map_cons, List.flatten_cons]
        have h1 := ih g img
        have h2 := h1.append_left xs
        exact h2.trans List.perm_middle

theorem groupImagesByAspectRatio_flatten_perm (images : List Image) :
    (((groupImagesByAspectRatio images).map Prod.snd).flatten).Perm images := by
  suffices h : ∀ (l : List Image) (acc : List (String × List Image)),
      (((l.foldl (fun acc img =>
          addToGroups acc (categorizeByAspectRatio img).group img) acc).map
        Prod.snd).flatten).Perm (((acc.map Prod.snd).flatten) ++ l) by
    have := h images []
    simpa [groupImagesByAspectRatio] using this
  intro l
  induction l with
  | nil => intro acc; simp
  | cons img rest ih =>
      intro acc
      simp only [List.foldl_cons]
      have h1 := ih (addToGroups acc (categorizeByAspectRatio img).group img)
      have h2 := addToGroups_flatten_perm acc (categorizeByAspectRatio img).group img
      refine h1.trans ?_
      refine (h2.append_right rest).trans ?_
      exact List.perm_middle.symm

theorem groupedGo_map_perm (cfg : Config) :
    ∀ (gs : List (String × List Image)) (y : ℚ),
      ((groupedGo cfg gs y).map (fun p => p.imageData)).Perm ((gs.map Prod.snd).flatten) := by
  intro gs
  induction gs with
  | nil => intro y; simp [groupedGo]
  | cons kv rest ih =>
      intro y
      obtain ⟨k, groupImages⟩ := kv
      simp only [groupedGo, List.map_append, List.map_cons, List.flatten_cons]
      refine List.Perm.append ?_ (ih _)
      rw [List.map_map]
      exact applyNaturalFlowLayout_map_perm cfg groupImages

theorem applyAspectGroupedLayout_map_perm (cfg : Config) (images : List Image) :
    ((applyAspectGroupedLayout cfg images).map (fun p => p.imageData)).Perm images :=
  (groupedGo_map_perm cfg (groupImagesByAspectRatio images) cfg.margin).trans
    (groupImagesByAspectRatio_flatten_perm images)

theorem applyMasonryLayout_map_perm (cfg : Config) (images : List Image) :
    ((applyMasonryLayout cfg images).map (fun p => p.imageData)).Perm images := by
  have h : (applyMasonryLayout cfg images).map (fun p => p.imageData) =
      (if cfg.prioritizeLargeImages then sortByAreaDesc images else images) :=
    masonryGo_map cfg _ _ _
  rw [h]
  exact sortedImages_perm cfg images

theorem applyProportionalGridLayout_map (cfg : Config) (images : List Image) :
    (applyProportionalGridLayout cfg images).map (fun p => p.imageData) = images :=
  gridGo_map cfg _ _ _ images 0

theorem applyOrganicStackLayout_map_perm (cfg : Config) (images : List Image)
    (rand : ℕ → ℚ × ℚ) :
    ((applyOrganicStackLayout cfg images rand).map (fun p => p.imageData)).Perm images := by
  have h : (applyOrganicStackLayout cfg images rand).map (fun p => p.imageData) =
      (applyMasonryLayout cfg images).map (fun p => p.imageData) :=
    organicGo_map cfg rand (applyMasonryLayout cfg images) 0
  rw [h]
  exact applyMasonryLayout_map_perm cfg images

theorem length_of_map_perm (l : List Placement) (imgs : List Image)
    (h : (l.map (fun p => p.imageData)).Perm imgs) : l.length = imgs.length := by
  have := h.length_eq
  simpa using this

/-- C10: every strategy emits exactly one placement per input image —
the output references the input descriptors as a permutation of the
input list (no image dropped, none placed twice), and in particular the
lengths agree. -/
theorem claim10_one_placement_per_image (cfg : Config) (images : List Image)
    (rand : ℕ → ℚ × ℚ) :
    ((applyNaturalFlowLayout cfg images).map (fun p => p.imageData)).Perm images ∧
    ((applyMasonryLayout cfg images).map (fun p => p.imageData)).Perm images ∧
    ((applyProportionalGridLayout cfg images).map (fun p => p.imageData)).Perm images ∧
    ((applyAspectGroupedLayout cfg images).map (fun p => p.imageData)).Perm images ∧
    ((applyOrganicStackLayout cfg images rand).map (fun p => p.imageData)).Perm images ∧
    (applyNaturalFlowLayout cfg images).length = images.length ∧
    (applyMasonryLayout cfg images).length = images.length ∧
    (applyProportionalGridLayout cfg images).length = images.length ∧
    (applyAspectGroupedLayout cfg images).length = images.length ∧
    (applyOrganicStackLayout cfg images rand).length = images.length := by
  have h1 := applyNaturalFlowLayout_map_perm cfg images
  have h2 := applyMasonryLayout_map_perm cfg images
  have h3 : ((applyProportionalGridLayout cfg images).map (fun p => p.imageData)).Perm
      images := by rw [applyProportionalGridLayout_map]
  have h4 := applyAspectGroupedLayout_map_perm cfg images
  have h5 := applyOrganicStackLayout_map_perm cfg images rand
  exact ⟨h1, h2, h3, h4, h5,
    length_of_map_perm _ _ h1, length_of_map_perm _ _ h2, length_of_map_perm _ _ h3,
    length_of_map_perm _ _ h4, length_of_map_perm _ _ h5⟩

/-- C8 is false as stated: no strategy (nor any caller of
`calculateAspectRatio`) checks the sign of the intrinsic dimensions; a
descriptor with `originalHeight = 0` flows straight into the ratio
division and each strategy still emits a placement for it instead of
rejecting it. -/
theorem claim8_counterexample :
    (applyMasonryLayout defaultConfig [⟨1, 100, 0⟩]).length = 1 ∧
    (applyProportionalGridLayout defaultConfig [⟨1, 100, 0⟩]).length = 1 ∧
    (applyNaturalFlowLayout defaultConfig [⟨1, 100, 0⟩]).length = 1 := by
  refine ⟨?_, ?_, ?_⟩
  · exact length_of_map_perm _ _ (applyMasonryLayout_map_perm defaultConfig [⟨1, 100, 0⟩])
  · exact length_of_map_perm _ _ (by
      rw [applyProportionalGridLayout_map defaultConfig [⟨1, 100, 0⟩]])
  · exact length_of_map_perm _ _ (applyNaturalFlowLayout_map_perm defaultConfig [⟨1, 100, 0⟩])

/-- C8 amended: the engine has no rejection path for invalid
descriptors — for a descriptor with a nonpositive dimension every
strategy still computes the unchecked ratio division and emits exactly
one placement for it. -/
theorem claim8_no_rejection (cfg : Config) (img : Image) (rand : ℕ → ℚ × ℚ)
    (_hinv : img.originalWidth ≤ 0 ∨ img.originalHeight ≤ 0) :
    (applyNaturalFlowLayout cfg [img]).length = 1 ∧
    (applyMasonryLayout cfg [img]).length = 1 ∧
    (applyProportionalGridLayout cfg [img]).length = 1 ∧
    (applyAspectGroupedLayout cfg [img]).length = 1 ∧
    (applyOrganicStackLayout cfg [img] rand).length = 1 := by
  refine ⟨?_, ?_, ?_, ?_, ?_⟩
  · exact length_of_map_perm _ _ (applyNaturalFlowLayout_map_perm cfg [img])
  · exact length_of_map_perm _ _ (applyMasonryLayout_map_perm cfg [img])
  · exact length_of_map_perm _ _ (by rw [applyProportionalGridLayout_map cfg [img]])
  · exact length_of_map_perm _ _ (applyAspectGroupedLayout_map_perm cfg [img])
  · exact length_of_map_perm _ _ (applyOrganicStackLayout_map_perm cfg [img] rand)

theorem claim8_no_rejection_witness :
    ((100 : ℚ) ≤ 0 ∨ (0 : ℚ) ≤ 0) ∧
    ((applyNaturalFlowLayout defaultConfig [⟨1, 100, 0⟩]).length = 1 ∧
     (applyMasonryLayout defaultConfig [⟨1, 100, 0⟩]).length = 1 ∧
     (applyProportionalGridLayout defaultConfig [⟨1, 100, 0⟩]).length = 1 ∧
     (applyAspectGroupedLayout defaultConfig [⟨1, 100, 0⟩]).length = 1 ∧
     (applyOrganicStackLayout defaultConfig [⟨1, 100, 0⟩] (fun _ => (1/2, 1/2))).length = 1) :=
  ⟨Or.inr (le_refl 0),
   claim8_no_rejection defaultConfig ⟨1, 100, 0⟩ (fun _ => (1/2, 1/2))
     (Or.inr (le_refl 0))⟩
